import Mathlib

/-!
Verification of the MacSweep core (macsweep.py): the scan-classify-aggregate-delete
pipeline.  Python strings are modelled as `List Char`, filesystems as finite trees
(`DirTree`) for the scanner and as finite path/object association lists (`FS`) for the
cleanup engine.  Fallible OS calls (`os.stat`, `os.path.getsize`, `os.path.getmtime`,
`os.remove`, `shutil.rmtree`, directory listing) are modelled with `Option` values and
Boolean success flags carried by the filesystem model.  Timestamps are integer seconds;
`timedelta(days=30)` is `30 * 86400` seconds.
-/

set_option maxRecDepth 8000

/-- Python `str` modelled as a list of characters. -/
abbrev Str := List Char

/-- Python `str.lower()` (the patterns involved are ASCII). -/
def lowerStr (s : Str) : Str := s.map Char.toLower

/-- Python `os.path.join(a, b)` for POSIX paths (`posixpath.join` with two arguments). -/
def pyJoin (a b : Str) : Str :=
  if b.head? = some '/' then b
  else if a = [] ∨ a.getLast? = some '/' then a ++ b
  else a ++ '/' :: b

/-- `pat` is a leading prefix of `s` (Python `str.startswith`). -/
def startsWith : Str → Str → Bool
  | [], _ => true
  | _ :: _, [] => false
  | a :: as, b :: bs => a == b && startsWith as bs

/-- Fuel-driven worker for `pyReplaceEmpty`: removes the non-overlapping occurrences of
`old` from the string, scanning left to right, exactly as Python `str.replace(old, '')`
does.  The fuel is an upper bound on the string length, so the fuel never runs out when
called through `pyReplaceEmpty`. -/
def removeAllF (old : Str) : Nat → Str → Str
  | 0, _ => []
  | _ + 1, [] => []
  | f + 1, c :: cs =>
    if old ≠ [] ∧ startsWith old (c :: cs) then removeAllF old f ((c :: cs).drop old.length)
    else c :: removeAllF old f cs

/-- Python `s.replace(old, '')`. -/
def pyReplaceEmpty (s old : Str) : Str := removeAllF old s.length s

/-- The depth computation of `count_files` / `scan_directory`:
`root.replace(path, '').count(os.sep)` where `path` is the scan root and `root` the
current directory (macsweep.py lines 91 and 118). -/
def walkDepth (scanRoot p : Str) : Nat := (pyReplaceEmpty p scanRoot).count '/'

/-- Extension part of `os.path.splitext` restricted to strings without a dot prefix
issue: returns the suffix starting at the last `'.'`, or `[]` when there is none. -/
def extOfAux : Str → Str
  | [] => []
  | c :: rest =>
    let e := extOfAux rest
    if e.isEmpty then (if c = '.' then c :: rest else []) else e

/-- Extension part of Python `os.path.splitext(name)` for a basename `name`: the suffix
from the last dot, except that leading dots of the basename never begin an extension
(`.bashrc` has extension `''`). -/
def splitextExt (name : Str) : Str := extOfAux (name.dropWhile (fun c => c = '.'))

/-- The cleanup categories of `FileScanner` (the eight pattern categories of
`self.file_types` plus the two fallback categories). -/
inductive CleanCat where
  | cache | logs | backups | downloads | trash | development | system | browser
  | large_files | old_files
deriving DecidableEq, Repr

/-- `FileScanner.file_types` (macsweep.py lines 60-69), in declared (insertion) order. -/
def file_types : List (CleanCat × List Str) :=
  [ (.cache, [".cache".data, ".tmp".data, ".temp".data, ".DS_Store".data]),
    (.logs, [".log".data, ".out".data, ".err".data]),
    (.backups, [".bak".data, ".backup".data, ".old".data, ".orig".data]),
    (.downloads, ["Downloads".data]),
    (.trash, [".Trash".data, ".trash".data]),
    (.development, ["node_modules".data, ".git".data, "__pycache__".data,
      ".pytest_cache".data, ".venv".data, "venv".data]),
    (.system, ["Library/Caches".data, "Library/Logs".data,
      "Library/Application Support".data]),
    (.browser, ["Library/Safari".data, "Library/Application Support/Google/Chrome".data,
      "Library/Application Support/Firefox".data]) ]

/-- Python substring containment `pat in s`: some contiguous run of `s` equals `pat`. -/
def containsSub (pat : Str) : Str → Bool
  | [] => pat.isEmpty
  | c :: cs => startsWith pat (c :: cs) || containsSub pat cs

/-- The file pattern test of `categorize_file` (line 173):
`file_lower.endswith(pattern.lower()) or pattern.lower() in path_lower`. -/
def patternMatchesFile (file_lower path_lower pat : Str) : Bool :=
  (lowerStr pat).isSuffixOf file_lower || containsSub (lowerStr pat) path_lower

/-- `FileScanner.categorize_file` (lines 165-191).  `getsize`/`getmtime` are the results
of `os.path.getsize`/`os.path.getmtime` on the file (`none` when the call raises
`OSError`, which the source swallows, skipping that fallback rule); `now` is the
evaluation time `datetime.now()`. -/
def categorize_file (file_path filename : Str) (getsize : Option Nat)
    (getmtime : Option Int) (now : Int) : Option CleanCat :=
  let file_lower := lowerStr filename
  let path_lower := lowerStr file_path
  match file_types.findSome?
      (fun cp => if cp.2.any (patternMatchesFile file_lower path_lower) then some cp.1
                 else none) with
  | some c => some c
  | none =>
    if (match getsize with
        | some sz => decide (100 * 1024 * 1024 < sz)
        | none => false) then some .large_files
    else if (match getmtime with
        | some m => decide (m < now - 30 * 86400)
        | none => false) then some .old_files
    else none

/-- The directory pattern test of `categorize_directory` (line 200):
`dirname_lower == pattern.lower() or pattern.lower() in path_lower`. -/
def patternMatchesDir (dirname_lower path_lower pat : Str) : Bool :=
  (dirname_lower == lowerStr pat) || containsSub (lowerStr pat) path_lower

/-- `FileScanner.categorize_directory` (lines 193-203). -/
def categorize_directory (dir_path dirname : Str) : Option CleanCat :=
  file_types.findSome?
    (fun cp => if cp.2.any (patternMatchesDir (lowerStr dirname) (lowerStr dir_path))
               then some cp.1 else none)

/-- The format-analysis categories of `self.format_categories` (lines 72-83). -/
inductive FormatCat where
  | documents | images | videos | audio | archives | executables | code | data
  | fonts | other
deriving DecidableEq, Repr

/-- `FileScanner.format_categories` (lines 72-83), in declared (insertion) order;
`other` has an empty extension list. -/
def format_categories : List (FormatCat × List Str) :=
  [ (.documents, [".pdf".data, ".doc".data, ".docx".data, ".txt".data, ".rtf".data,
      ".odt".data, ".pages".data, ".key".data, ".ppt".data, ".pptx".data, ".xls".data,
      ".xlsx".data]),
    (.images, [".jpg".data, ".jpeg".data, ".png".data, ".gif".data, ".bmp".data,
      ".tiff".data, ".svg".data, ".webp".data, ".heic".data, ".raw".data, ".cr2".data,
      ".nef".data]),
    (.videos, [".mp4".data, ".avi".data, ".mov".data, ".wmv".data, ".flv".data,
      ".webm".data, ".mkv".data, ".m4v".data, ".3gp".data, ".mpg".data, ".mpeg".data]),
    (.audio, [".mp3".data, ".wav".data, ".flac".data, ".aac".data, ".ogg".data,
      ".m4a".data, ".wma".data, ".aiff".data, ".alac".data]),
    (.archives, [".zip".data, ".rar".data, ".7z".data, ".tar".data, ".gz".data,
      ".bz2".data, ".xz".data, ".dmg".data, ".iso".data]),
    (.executables, [".exe".data, ".app".data, ".dmg".data, ".pkg".data, ".deb".data,
      ".rpm".data, ".msi".data, ".bat".data, ".sh".data]),
    (.code, [".py".data, ".js".data, ".html".data, ".css".data, ".java".data,
      ".cpp".data, ".c".data, ".php".data, ".rb".data, ".go".data, ".rs".data,
      ".swift".data]),
    (.data, [".json".data, ".xml".data, ".csv".data, ".sql".data, ".db".data,
      ".sqlite".data, ".yaml".data, ".yml".data, ".toml".data, ".ini".data,
      ".conf".data]),
    (.fonts, [".ttf".data, ".otf".data, ".woff".data, ".woff2".data, ".eot".data]),
    (.other, []) ]

/-- `FileScanner.categorize_file_format` (lines 275-305).  `mime` is the result of the
`mimetypes.guess_type(file_path)` probe on the file's path: `none` both when the probe
returns no type and when it raises (the source swallows any exception). -/
def categorize_file_format (extension : Str) (mime : Option Str) : FormatCat :=
  match format_categories.findSome?
      (fun ce => if extension ∈ ce.2 then some ce.1 else none) with
  | some c => c
  | none =>
    if extension.isEmpty then
      match mime with
      | none => .other
      | some m =>
        if startsWith "image/".data m then .images
        else if startsWith "video/".data m then .videos
        else if startsWith "audio/".data m then .audio
        else if startsWith "text/".data m then .documents
        else if startsWith "application/".data m then
          if containsSub "pdf".data m then .documents
          else if containsSub "zip".data m || containsSub "rar".data m
              || containsSub "7z".data m then .archives
          else .other
        else .other
    else .other

/-- A regular file of the model filesystem.  `stat` is `none` when `os.stat` /
`os.path.getsize` on it raises `OSError` (e.g. a broken symlink), otherwise
`(st_size, st_mtime)`. -/
structure FileEnt where
  name : Str
  stat : Option (Nat × Int)
deriving DecidableEq, Repr

/-- A directory of the model filesystem.  `readable` is whether listing it succeeds
(`os.walk` silently skips a directory whose `scandir` fails, since `onerror` is left as
`None`); `dirStat` is the result of `os.path.getmtime` on the directory. -/
inductive DirTree where
  | node (name : Str) (readable : Bool) (dirStat : Option Int)
      (files : List FileEnt) (subdirs : List DirTree)

def DirTree.name : DirTree → Str
  | .node n _ _ _ _ => n

def DirTree.dirStat : DirTree → Option Int
  | .node _ _ st _ _ => st

set_option linter.unusedVariables false in
/-- Induction principle for the nested tree type: prove a node from all its subtrees. -/
def DirTree.inductionOn (P : DirTree → Prop)
    (h : ∀ n r st fs subs, (∀ d ∈ subs, P d) → P (.node n r st fs subs)) :
    ∀ t, P t
  | .node n r st fs subs => h n r st fs subs (fun d hd => DirTree.inductionOn P h d)
termination_by t => sizeOf t
decreasing_by
  have hlt := List.sizeOf_lt_of_mem hd
  simp only [DirTree.node.sizeOf_spec]
  omega

/-- The hidden-directory filter of `count_files` / `scan_directory` (lines 97 and 124):
`not d.startswith('.') or d in ['.cache', '.tmp', '.trash', '.Trash']`. -/
def visibleDir (d : DirTree) : Bool :=
  !(d.name.head? == some '.')
    || (d.name == ".cache".data || d.name == ".tmp".data
        || d.name == ".trash".data || d.name == ".Trash".data)

mutual
/-- `FileScanner.get_directory_size` (lines 205-218): `os.walk` over the whole subtree
(no depth bound, no hidden filter, unreadable directories silently skipped), summing
`os.path.getsize` per file and skipping files whose size cannot be read. -/
def get_directory_size : DirTree → Nat
  | .node _ rdbl _ fls subs =>
    if rdbl then
      (fls.map (fun f => match f.stat with | some (sz, _) => sz | none => 0)).sum
        + gdsForest subs
    else 0

def gdsForest : List DirTree → Nat
  | [] => 0
  | d :: ds => get_directory_size d + gdsForest ds
end

/-- One record of a scan result: the category it was appended under, the walk
directory (`root` in the source) and entry name whose join is the recorded path, and
the recorded size and modification time. -/
structure SEntry where
  cat : CleanCat
  dir : Str
  name : Str
  size : Nat
  mtime : Int
deriving DecidableEq, Repr

/-- The path recorded in the result tuple: `os.path.join(root, name)`. -/
def SEntry.path (e : SEntry) : Str := pyJoin e.dir e.name

/-- Output of a scan walk: the flat list of appended entries in traversal order
(the source's per-category lists are this list grouped by `cat`, order preserved),
`visits` counts iterations of the per-file loop (one `progress.update()` each), and
`calls` counts the actual `categorize_file` invocations (skipped when `os.stat`
raises). -/
structure ScanOut where
  entries : List SEntry
  visits : Nat
  calls : Nat
deriving DecidableEq, Repr

/-- The per-file body of `scan_directory`'s file loop (lines 126-138): stat the file,
skipping it silently on failure, and otherwise build the entry appended under the
category `categorize_file` returns (nothing when it returns none). -/
def scanFileEntry (now : Int) (p : Str) (f : FileEnt) : Option SEntry :=
  match f.stat with
  | none => none
  | some (sz, mt) =>
    (categorize_file (pyJoin p f.name) f.name (some sz) (some mt) now).map
      (fun c => ⟨c, p, f.name, sz, mt⟩)

/-- The per-directory body of `scan_directory`'s candidate loop (lines 144-154): when
`categorize_directory` returns a category, build the single entry sized by
`get_directory_size`, skipped when `os.path.getmtime` on the directory raises. -/
def scanDirEntry (p : Str) (d : DirTree) : Option SEntry :=
  match categorize_directory (pyJoin p d.name) d.name with
  | none => none
  | some c =>
    match d with
    | .node _ _ none _ _ => none
    | .node _ _ (some dm) _ _ => some ⟨c, p, d.name, get_directory_size d, dm⟩

mutual
/-- `FileScanner.scan_directory` (lines 103-163) below the walk node with path string
`p` of tree `t`: prune when the directory is unlistable or the computed depth reaches
`max_depth`; otherwise filter hidden subdirectories, stat and categorize each file,
then categorize each kept subdirectory as a cleanup candidate (sized by
`get_directory_size`, skipped when `os.path.getmtime` raises), then walk the kept
subdirectories in order. -/
def walkScan (sr : Str) (maxDepth : Nat) (now : Int) (p : Str) : DirTree → ScanOut
  | .node _ rdbl _ fls subs =>
    if rdbl = false then ⟨[], 0, 0⟩
    else if maxDepth ≤ walkDepth sr p then ⟨[], 0, 0⟩
    else
      let kept := subs.filter visibleDir
      let fileEntries := fls.filterMap (scanFileEntry now p)
      let dirEntries := kept.filterMap (scanDirEntry p)
      let rest := walkScanForest sr maxDepth now p subs
      ⟨fileEntries ++ dirEntries ++ rest.entries,
        fls.length + rest.visits,
        fls.countP (fun f => f.stat.isSome) + rest.calls⟩

/-- The recursive descent of `os.walk` into the pruned `dirs` list: subdirectories
removed by the hidden filter are not descended into. -/
def walkScanForest (sr : Str) (maxDepth : Nat) (now : Int) (p : Str) :
    List DirTree → ScanOut
  | [] => ⟨[], 0, 0⟩
  | d :: ds =>
    let hd := if visibleDir d then walkScan sr maxDepth now (pyJoin p d.name) d
              else ⟨[], 0, 0⟩
    let tl := walkScanForest sr maxDepth now p ds
    ⟨hd.entries ++ tl.entries, hd.visits + tl.visits, hd.calls + tl.calls⟩
end

/-- `scan_directory(path, max_depth)`: the walk starts at the root itself. -/
def scan_directory (sr : Str) (maxDepth : Nat) (now : Int) (t : DirTree) : ScanOut :=
  walkScan sr maxDepth now sr t

mutual
/-- `FileScanner.count_files` (lines 85-101): the identical pruned walk, adding
`len(files)` per surviving directory. -/
def count_files (sr : Str) (maxDepth : Nat) (p : Str) : DirTree → Nat
  | .node _ rdbl _ fls subs =>
    if rdbl = false then 0
    else if maxDepth ≤ walkDepth sr p then 0
    else fls.length + countFilesForest sr maxDepth p subs

def countFilesForest (sr : Str) (maxDepth : Nat) (p : Str) : List DirTree → Nat
  | [] => 0
  | d :: ds =>
    (if visibleDir d then count_files sr maxDepth (pyJoin p d.name) d else 0)
      + countFilesForest sr maxDepth p ds
end

/-- One record of the Downloads format analysis: the `(category, extension)` pair the
file is filed under and the recorded `(file_path, size, mtime)` tuple.  The source's
two-level `defaultdict` is this flat list grouped by `(cat, ext)` with order
preserved. -/
structure FRecord where
  cat : FormatCat
  ext : Str
  path : Str
  size : Nat
  mtime : Int
deriving DecidableEq, Repr

mutual
/-- The walk of `FileScanner.analyze_downloads_formats` (lines 244-261) below the node
with path string `p`: a plain `os.walk` with no depth bound and no hidden-directory
pruning.  Each file is stat-ed (skipped if that raises), its extension taken as
`os.path.splitext(file.lower())`, and it is appended under
`categorize_file_format(ext, file_path)`.  `guess` supplies the `mimetypes.guess_type`
probe result for a path. -/
def analyzeWalk (guess : Str → Option Str) (p : Str) : DirTree → List FRecord
  | .node _ rdbl _ fls subs =>
    if rdbl = false then []
    else
      fls.filterMap (fun f =>
        match f.stat with
        | none => none
        | some (sz, mt) =>
          let fp := pyJoin p f.name
          let ext := splitextExt (lowerStr f.name)
          some ⟨categorize_file_format ext (guess fp), ext, fp, sz, mt⟩)
      ++ analyzeForest guess p subs

def analyzeForest (guess : Str → Option Str) (p : Str) : List DirTree → List FRecord
  | [] => []
  | d :: ds => analyzeWalk guess (pyJoin p d.name) d ++ analyzeForest guess p ds
end

/-- `FileScanner.analyze_downloads_formats(downloads_path)` (lines 220-273): when
`os.path.exists(downloads_path)` is false the target is `none` and the empty mapping is
returned; otherwise the whole subtree is walked. -/
def analyze_downloads_formats (guess : Str → Option Str) (p : Str) :
    Option DirTree → List FRecord
  | none => []
  | some t => analyzeWalk guess p t

/-- An object of the cleanup engine's filesystem: a regular file with its
`os.path.getsize` value, or a directory.  `removable` is whether `os.remove` /
`shutil.rmtree` on it succeeds (false models an `OSError` during removal). -/
inductive FsObj where
  | fileObj (size : Nat) (removable : Bool)
  | dirObj (removable : Bool)
deriving DecidableEq, Repr

/-- The cleanup engine's filesystem: a finite map from paths to objects, as an
association list.  A path absent from the map is neither a file nor a directory
(`os.path.isfile` and `os.path.isdir` both false). -/
def FS := List (Str × FsObj)

instance : DecidableEq FS := by unfold FS; infer_instance

def fsLookup (fs : FS) (p : Str) : Option FsObj :=
  (fs.find? (fun kv => kv.1 == p)).map (·.2)

/-- `q` lies strictly under directory path `p`. -/
def isUnder (p q : Str) : Bool := startsWith (p ++ ['/']) q

/-- Effect of a successful `os.remove(p)` / `shutil.rmtree(p)`: the path and (for a
directory) everything under it disappear. -/
def removePath (fs : FS) (p : Str) : FS :=
  fs.filter (fun kv => !(kv.1 == p || isUnder p kv.1))

namespace CleanupEngine

/-- `CleanupEngine.get_directory_size` (lines 365-378) rendered on the flat filesystem:
the sum of the sizes of the files lying under `p`.  It never raises (per-file failures
and traversal failures are swallowed in the source). -/
def get_directory_size (fs : FS) (p : Str) : Nat :=
  (fs.filterMap (fun kv => match kv.2 with
    | .fileObj sz _ => if isUnder p kv.1 then some sz else none
    | .dirObj _ => none)).sum

/-- One iteration of the loop of `CleanupEngine.cleanup_files` (lines 340-361) on state
`(files_removed, bytes_freed, filesystem)`: files are checked first, then directories;
sizes are computed before removal; in dry-run mode nothing is removed but both counters
still advance; a removal error (`removable = false`) is caught, increments neither
counter and leaves the loop running; a path that is neither file nor directory is
skipped silently. -/
def cleanup_step (dry_run : Bool) (st : Nat × Nat × FS) (p : Str) : Nat × Nat × FS :=
  let fs := st.2.2
  match fsLookup fs p with
  | some (.fileObj sz rem) =>
    if dry_run then (st.1 + 1, st.2.1 + sz, fs)
    else if rem then (st.1 + 1, st.2.1 + sz, removePath fs p)
    else st
  | some (.dirObj rem) =>
    let sz := get_directory_size fs p
    if dry_run then (st.1 + 1, st.2.1 + sz, fs)
    else if rem then (st.1 + 1, st.2.1 + sz, removePath fs p)
    else st
  | none => st

/-- `CleanupEngine.cleanup_files(files)` (lines 335-363), returning
`(files_removed, bytes_freed)` together with the final filesystem state. -/
def cleanup_files (dry_run : Bool) (fs : FS) (files : List Str) : Nat × Nat × FS :=
  files.foldl (cleanup_step dry_run) (0, 0, fs)

end CleanupEngine

/-! ### Specification-side definitions (phrased from the spec's words, to be compared
with the definitions translated from the source). -/

/-- Spec 4.2 rule 1, file form: "A file matches if its lowercased name ends with the
lowercased pattern OR the lowercased pattern appears anywhere in the lowercased full
path." -/
def specFileMatch (filename file_path pat : Str) : Bool :=
  (lowerStr pat).isSuffixOf (lowerStr filename)
    || containsSub (lowerStr pat) (lowerStr file_path)

/-- Spec 4.2 rule 1: "iterate the eight named categories in their declared order ...
First category whose any pattern matches wins; no further categories are checked." -/
def specPatternCat (filename file_path : Str) : Option CleanCat :=
  ((file_types.filter (fun cp => cp.2.any (specFileMatch filename file_path))).head?).map
    (·.1)

/-- Spec 4.2 rules 1-4 for files, assembled as the claim states them: the first
matching pattern category; only if none matched and the size exceeds 100 MiB,
`large_files`; only if still unmatched and the modification time is more than 30 days
before evaluation time, `old_files`; otherwise no category. -/
def categorizeFileSpec (file_path filename : Str) (getsize : Option Nat)
    (getmtime : Option Int) (now : Int) : Option CleanCat :=
  match specPatternCat filename file_path with
  | some c => some c
  | none =>
    if (getsize.map (fun sz => decide (100 * 1024 * 1024 < sz))).getD false then
      some .large_files
    else if (getmtime.map (fun m => decide (m < now - 30 * 86400))).getD false then
      some .old_files
    else none

/-- Spec 4.3: the lookup of an extension "against the fixed extension lists": the first
category whose list contains it, else `other`. -/
def formatLookup (extension : Str) : FormatCat :=
  (((format_categories.filter (fun ce => extension ∈ ce.2)).head?).map (·.1)).getD .other

/-- The ten format categories: `categorize_file_format` always returns one of these
(totality, "never none"). -/
def allFormatCats : List FormatCat :=
  [.documents, .images, .videos, .audio, .archives, .executables, .code, .data,
   .fonts, .other]

mutual
/-- Spec 4.4: the sizes of "every file reachable from `path`" that the walk could stat,
i.e. all stat-able files inside listable directories, at any depth. -/
def statableSizes : DirTree → List Nat
  | .node _ rdbl _ fls subs =>
    if rdbl then fls.filterMap (fun f => f.stat.map Prod.fst) ++ statableSizesForest subs
    else []

def statableSizesForest : List DirTree → List Nat
  | [] => []
  | d :: ds => statableSizes d ++ statableSizesForest ds
end

mutual
/-- Every directory of the tree is listable (no traversal failures anywhere). -/
def allReadable : DirTree → Bool
  | .node _ rdbl _ _ subs => rdbl && allReadableForest subs

def allReadableForest : List DirTree → Bool
  | [] => true
  | d :: ds => allReadable d && allReadableForest ds
end

mutual
/-- Every file of the tree can be stat-ed (no metadata-read failures anywhere). -/
def allStatsOk : DirTree → Bool
  | .node _ _ _ fls subs =>
    fls.all (fun f => f.stat.isSome) && allStatsOkForest subs

def allStatsOkForest : List DirTree → Bool
  | [] => true
  | d :: ds => allStatsOk d && allStatsOkForest ds
end

mutual
/-- Every regular file under the node with path string `p`, at any depth, with no
hidden-directory exclusion: the enumeration the claim about
`analyze_downloads_formats` quantifies over.  Each element is the walk directory of
the file paired with the file itself. -/
def allFilesUnder (p : Str) : DirTree → List (Str × FileEnt)
  | .node _ _ _ fls subs => fls.map (fun f => (p, f)) ++ allFilesForest p subs

def allFilesForest (p : Str) : List DirTree → List (Str × FileEnt)
  | [] => []
  | d :: ds => allFilesUnder (pyJoin p d.name) d ++ allFilesForest p ds
end

/-- The format record the spec predicts for one file: the extension of the lowercased
name, the joined path, and the category from `categorize_file_format`; `none` when the
file cannot be stat-ed. -/
def specFRecord (guess : Str → Option Str) (pf : Str × FileEnt) : Option FRecord :=
  pf.2.stat.map (fun s =>
    ⟨categorize_file_format (splitextExt (lowerStr pf.2.name)) (guess (pyJoin pf.1 pf.2.name)),
     splitextExt (lowerStr pf.2.name), pyJoin pf.1 pf.2.name, s.1, s.2⟩)

/-- A path component is well formed: non-empty and free of the path separator. -/
def goodComp (n : Str) : Bool := !n.isEmpty && decide ('/' ∉ n)

/-- A directory path string suitable as a walk root: non-empty and not ending in the
separator (so that `os.path.join` appends `'/' + name`). -/
def goodPath (p : Str) : Bool := !p.isEmpty && !(p.getLast? == some '/')

mutual
/-- Well-formedness of a model filesystem, as a real directory tree satisfies it:
every name is a non-empty separator-free component, sibling file names are distinct,
sibling directory names are distinct, and no file shares its name with a sibling
directory. -/
def wellFormed : DirTree → Bool
  | .node _ _ _ fls subs =>
    fls.all (fun f => goodComp f.name)
      && subs.all (fun d => goodComp d.name)
      && decide ((fls.map (fun f => f.name)).Nodup)
      && decide ((subs.map (fun d => d.name)).Nodup)
      && fls.all (fun f => decide (f.name ∉ subs.map (fun d => d.name)))
      && wellFormedForest subs

def wellFormedForest : List DirTree → Bool
  | [] => true
  | d :: ds => wellFormed d && wellFormedForest ds
end

/-- The leading separator-free component of a relative path. -/
def firstComp (r : Str) : Str := r.takeWhile (fun c => decide (c ≠ '/'))

/-! ### Concrete instances used by counterexamples and witnesses. -/

/-- A `node_modules` directory (mtime 5) holding one file `x.js` (size 7, mtime 3). -/
def tNMsub : DirTree :=
  .node "node_modules".data true (some 5) [⟨"x.js".data, some (7, 3)⟩] []

/-- A scan root `base` containing the `node_modules` directory `tNMsub`. -/
def tNM : DirTree := .node "base".data true (some 0) [] [tNMsub]

/-- A scan root whose path string is `c/d`, holding `xc/d/a.log`.  The directory
`c/d/xc/d` lies two separators below the root, but because the root string `c/d`
reoccurs inside its path, `'c/d/xc/d'.replace('c/d', '')` is `'/x'` and the walk
computes depth 1 for it. -/
def tC3 : DirTree :=
  .node "c/d".data true (some 0) []
    [.node "xc".data true (some 0) []
      [.node "d".data true (some 0) [⟨"a.log".data, some (1, 0)⟩] []]]

/-- A downloads directory holding `report.PDF` (size 10, mtime 1) and `photo.jpeg`
(size 20, mtime 2). -/
def tFmt : DirTree :=
  .node "dl".data true (some 0)
    [⟨"report.PDF".data, some (10, 1)⟩, ⟨"photo.jpeg".data, some (20, 2)⟩] []

/-- A MIME probe that never identifies a type. -/
def gNone : Str → Option Str := fun _ => none

/-- A downloads directory whose only file lies inside a hidden subdirectory `.hid`
(which `scan_directory` would prune but `analyze_downloads_formats` must not). -/
def tHid : DirTree :=
  .node "dl".data true (some 0) []
    [.node ".hid".data true (some 0) [⟨"x.png".data, some (4, 9)⟩] []]

/-- A cleanup filesystem: one removable file, one file whose removal raises, and a
directory whose removal raises, holding one file. -/
def fsW : FS :=
  [("a.txt".data, .fileObj 5 true), ("locked.txt".data, .fileObj 9 false),
   ("d".data, .dirObj false), ("d/x".data, .fileObj 3 true)]

/-! ### Helper lemmas. -/

theorem findSome?_if_eq_filter_head {a b : Type} (p : a -> Bool) (f : a -> b)
    (l : List a) :
    l.findSome? (fun x => if p x then some (f x) else none)
      = ((l.filter p).head?).map f := by
  induction l with
  | nil => rfl
  | cons x xs ih => by_cases h : p x <;> simp [List.findSome?, List.filter, h, ih]

theorem findSome?_ite_eq_filter_head {a b : Type} (p : a -> Prop) [DecidablePred p]
    (f : a -> b) (l : List a) :
    l.findSome? (fun x => if p x then some (f x) else none)
      = ((l.filter (fun x => decide (p x))).head?).map f := by
  induction l with
  | nil => rfl
  | cons x xs ih => by_cases h : p x <;> simp [List.findSome?, List.filter, h, ih]

/-! ### Claim theorems. -/

/-- C1: for every file, `categorize_file` applies rules in the fixed order 1→2→3 and
returns at most one category (an `Option`): the eight pattern categories are tried in
declared order with the endswith-name-or-substring-of-path test, the first category
with a matching pattern wins; only if no pattern matched and the size exceeds 100 MiB
is `large_files` returned; only if still unmatched and the modification time is more
than 30 days before evaluation time is `old_files` returned; otherwise no category. -/
theorem categorize_file_follows_spec (file_path filename : Str) (getsize : Option Nat)
    (getmtime : Option Int) (now : Int) :
    categorize_file file_path filename getsize getmtime now
      = categorizeFileSpec file_path filename getsize getmtime now := by
  simp only [categorize_file, categorizeFileSpec, specPatternCat]
  have hpm : patternMatchesFile (lowerStr filename) (lowerStr file_path)
      = specFileMatch filename file_path := by
    funext pat
    simp [patternMatchesFile, specFileMatch]
  rw [hpm]
  simp only [findSome?_if_eq_filter_head]
  cases ((file_types.filter
      (fun cp => cp.2.any (specFileMatch filename file_path))).head?).map (fun cp => cp.1) with
  | some c => rfl
  | none => cases getsize <;> cases getmtime <;> rfl

theorem cleanup_step_dry_fs (st : Nat × Nat × FS) (p : Str) :
    (CleanupEngine.cleanup_step true st p).2.2 = st.2.2 := by
  simp only [CleanupEngine.cleanup_step]
  cases fsLookup st.2.2 p with
  | none => rfl
  | some o => cases o <;> rfl

theorem cleanup_files_dry_fs (ps : List Str) : ∀ st : Nat × Nat × FS,
    (ps.foldl (CleanupEngine.cleanup_step true) st).2.2 = st.2.2 := by
  induction ps with
  | nil => intro st; rfl
  | cons p ps ih => intro st; rw [List.foldl_cons, ih, cleanup_step_dry_fs]

/-- C5: with `dry_run = true`, `cleanup_files` performs no filesystem mutation (the
state after the run equals the state before it), and a second run on the resulting
(identical) filesystem state returns the identical `(files_removed, bytes_freed,
state)` result. -/
theorem cleanup_dry_run_idempotent (fs : FS) (ps : List Str) :
    (CleanupEngine.cleanup_files true fs ps).2.2 = fs
      ∧ CleanupEngine.cleanup_files true (CleanupEngine.cleanup_files true fs ps).2.2 ps
          = CleanupEngine.cleanup_files true fs ps := by
  have h : (CleanupEngine.cleanup_files true fs ps).2.2 = fs :=
    cleanup_files_dry_fs ps (0, 0, fs)
  exact ⟨h, by rw [h]⟩

theorem fileSizes_sum (fls : List FileEnt) :
    (fls.map (fun f => match f.stat with | some (sz, _) => sz | none => 0)).sum
      = (fls.filterMap (fun f => f.stat.map Prod.fst)).sum := by
  induction fls with
  | nil => rfl
  | cons f fs ih =>
    cases h : f.stat with
    | none => simp [List.filterMap_cons, h, ih]
    | some s => obtain ⟨sz, mt⟩ := s; simp [List.filterMap_cons, h, ih]

/-- C9: `get_directory_size` is total (it returns a plain `Nat`, never an error) and
returns exactly the sum of the sizes of the files it could stat: per-file stat failures
contribute nothing, and an unlistable directory anywhere in the subtree (a traversal
failure) silently drops only that subtree, leaving the partial sum of everything else. -/
theorem get_directory_size_eq_statable_sum : ∀ t : DirTree,
    get_directory_size t = (statableSizes t).sum := by
  intro t
  induction t using DirTree.inductionOn with
  | _ n r st fs subs ih =>
    have hforest : ∀ ds, (∀ d ∈ ds, get_directory_size d = (statableSizes d).sum) →
        gdsForest ds = (statableSizesForest ds).sum := by
      intro ds h
      induction ds with
      | nil => rfl
      | cons d rest ihr =>
        rw [gdsForest, statableSizesForest, List.sum_append,
          h d (by simp), ihr (fun x hx => h x (by simp [hx]))]
    cases r with
    | false => rfl
    | true =>
      rw [get_directory_size, statableSizes, if_pos rfl, if_pos rfl, List.sum_append,
        fileSizes_sum, hforest subs ih]

/-- C4: for every path list given to `cleanup_files`: a path that is neither a file nor
a directory is silently skipped and contributes to neither counter — in particular
`cleanup_files([missing])` in non-dry-run mode returns `(0, 0)` with the filesystem
untouched and no unhandled error — and a removal error on a file or directory
(`removable = false`, the `OSError` branch) increments neither counter for that path
and does not stop processing of the remaining paths. -/
theorem cleanup_files_skip_and_continue :
    (∀ fs p, fsLookup fs p = none →
      CleanupEngine.cleanup_files false fs [p] = (0, 0, fs))
    ∧ (∀ dr fs ps1 ps2 p, fsLookup (CleanupEngine.cleanup_files dr fs ps1).2.2 p = none →
        CleanupEngine.cleanup_files dr fs (ps1 ++ p :: ps2)
          = CleanupEngine.cleanup_files dr fs (ps1 ++ ps2))
    ∧ (∀ fs ps1 ps2 p sz,
        fsLookup (CleanupEngine.cleanup_files false fs ps1).2.2 p
            = some (.fileObj sz false) →
        CleanupEngine.cleanup_files false fs (ps1 ++ p :: ps2)
          = CleanupEngine.cleanup_files false fs (ps1 ++ ps2))
    ∧ (∀ fs ps1 ps2 p,
        fsLookup (CleanupEngine.cleanup_files false fs ps1).2.2 p
            = some (.dirObj false) →
        CleanupEngine.cleanup_files false fs (ps1 ++ p :: ps2)
          = CleanupEngine.cleanup_files false fs (ps1 ++ ps2)) := by
  refine ⟨fun fs p h => ?_, fun dr fs ps1 ps2 p h => ?_, fun fs ps1 ps2 p sz h => ?_,
    fun fs ps1 ps2 p h => ?_⟩ <;>
    simp only [CleanupEngine.cleanup_files, List.foldl_append, List.foldl_cons] at h ⊢ <;>
    rw [CleanupEngine.cleanup_step] <;> rw [h] <;> simp

/-- Witness for C4 at a concrete filesystem: the missing path `gone` yields `(0, 0)`
and leaves `fsW` unchanged; skipping it mid-list, a failing file removal
(`locked.txt`) and a failing directory removal (`d`) all leave the result of the
remaining paths unchanged. -/
theorem cleanup_files_skip_and_continue_witness :
    CleanupEngine.cleanup_files false fsW ["gone".data] = (0, 0, fsW)
    ∧ CleanupEngine.cleanup_files false fsW (["a.txt".data] ++ "gone".data :: ["d/x".data])
        = CleanupEngine.cleanup_files false fsW (["a.txt".data] ++ ["d/x".data])
    ∧ CleanupEngine.cleanup_files false fsW (["a.txt".data] ++ "locked.txt".data :: ["d/x".data])
        = CleanupEngine.cleanup_files false fsW (["a.txt".data] ++ ["d/x".data])
    ∧ CleanupEngine.cleanup_files false fsW (["a.txt".data] ++ "d".data :: ["d/x".data])
        = CleanupEngine.cleanup_files false fsW (["a.txt".data] ++ ["d/x".data]) :=
  ⟨cleanup_files_skip_and_continue.1 fsW "gone".data (by decide),
   cleanup_files_skip_and_continue.2.1 false fsW ["a.txt".data] ["d/x".data] "gone".data
     (by decide),
   cleanup_files_skip_and_continue.2.2.1 fsW ["a.txt".data] ["d/x".data] "locked.txt".data 9
     (by decide),
   cleanup_files_skip_and_continue.2.2.2 fsW ["a.txt".data] ["d/x".data] "d".data
     (by decide)⟩

/-- C7: `categorize_file_format` is total (conjunct 5: always one of the ten
categories, never none, defaulting to `other`).  A non-empty extension is looked up
against the fixed extension lists with the MIME probe never consulted (conjunct 1);
with an empty extension the MIME probe maps a failed probe to `other`, `image/*` to
images, `video/*` to videos, `audio/*` to audio, `text/*` to documents,
`application/pdf` to documents and the zip/rar/7z application types to archives
(conjuncts 2-4 and 6-7); and extensions are lowercased before lookup, so a directory
holding `report.PDF` and `photo.jpeg` is analyzed into `documents` under `.pdf` and
`images` under `.jpeg` (conjunct 8). -/
theorem categorize_file_format_follows_spec :
    (∀ (c : Char) (ext : Str) (mime : Option Str),
        categorize_file_format (c :: ext) mime = formatLookup (c :: ext))
    ∧ (categorize_file_format [] none = .other)
    ∧ (∀ r : Str, categorize_file_format [] (some ("image/".data ++ r)) = .images
        ∧ categorize_file_format [] (some ("video/".data ++ r)) = .videos
        ∧ categorize_file_format [] (some ("audio/".data ++ r)) = .audio
        ∧ categorize_file_format [] (some ("text/".data ++ r)) = .documents)
    ∧ (categorize_file_format [] (some "application/pdf".data) = .documents)
    ∧ (∀ ext mime, categorize_file_format ext mime ∈ allFormatCats)
    ∧ (categorize_file_format [] (some "application/zip".data) = .archives
        ∧ categorize_file_format [] (some "application/x-rar-compressed".data) = .archives
        ∧ categorize_file_format [] (some "application/x-7z-compressed".data) = .archives)
    ∧ (analyzeWalk gNone "dl".data tFmt
        = [⟨.documents, ".pdf".data, "dl/report.PDF".data, 10, 1⟩,
           ⟨.images, ".jpeg".data, "dl/photo.jpeg".data, 20, 2⟩]) := by
  refine ⟨fun c ext mime => ?_, by decide, fun r => ⟨rfl, rfl, rfl, rfl⟩, by decide,
    fun ext mime => ?_, ⟨by decide, by decide, by decide⟩, by decide⟩
  · simp only [categorize_file_format, formatLookup, findSome?_ite_eq_filter_head]
    cases ((format_categories.filter
        (fun ce => decide ((c :: ext) ∈ ce.2))).head?).map (fun ce => ce.1) with
    | some cat => rfl
    | none => rfl
  · cases h : categorize_file_format ext mime <;> simp [allFormatCats]

theorem count_files_eq_walk (sr : Str) (md : Nat) (now : Int) : ∀ t : DirTree, ∀ p,
    count_files sr md p t = (walkScan sr md now p t).visits
    ∧ (allStatsOk t = true →
        count_files sr md p t = (walkScan sr md now p t).calls) := by
  intro t
  induction t using DirTree.inductionOn with
  | _ n r dst fs subs ih =>
    have hforest : ∀ ds, (∀ d ∈ ds, ∀ p,
          count_files sr md p d = (walkScan sr md now p d).visits
          ∧ (allStatsOk d = true →
              count_files sr md p d = (walkScan sr md now p d).calls)) →
        ∀ p', countFilesForest sr md p' ds = (walkScanForest sr md now p' ds).visits
          ∧ (allStatsOkForest ds = true →
              countFilesForest sr md p' ds = (walkScanForest sr md now p' ds).calls) := by
      intro ds hds
      induction ds with
      | nil => exact fun p' => ⟨rfl, fun _ => rfl⟩
      | cons d rest ihr =>
        intro p'
        obtain ⟨h1, h2⟩ := hds d (by simp) (pyJoin p' d.name)
        obtain ⟨h3, h4⟩ := ihr (fun x hx => hds x (by simp [hx])) p'
        constructor
        · by_cases hv : visibleDir d = true <;>
            simp [countFilesForest, walkScanForest, hv, h1, h3]
        · intro hok
          rw [allStatsOkForest, Bool.and_eq_true] at hok
          by_cases hv : visibleDir d = true <;>
            simp [countFilesForest, walkScanForest, hv, h2 hok.1, h4 hok.2]
    cases r with
    | false => exact fun p => ⟨rfl, fun _ => rfl⟩
    | true =>
      intro p
      by_cases hd : md ≤ walkDepth sr p
      · refine ⟨?_, fun _ => ?_⟩ <;> simp [count_files, walkScan, hd]
      · obtain ⟨hf1, hf2⟩ := hforest subs ih p
        refine ⟨?_, fun hok => ?_⟩
        · simp [count_files, walkScan, hd, hf1]
        · rw [allStatsOk, Bool.and_eq_true] at hok
          have hlen : fs.countP (fun f => f.stat.isSome) = fs.length :=
            List.countP_eq_length.mpr
              (by intro f hf; exact (List.all_eq_true.mp hok.1) f hf)
          simp [count_files, walkScan, hd, hf2 hok.2, hlen]

/-- C6: over an unchanging filesystem, `count_files(root, maxDepth)` returns exactly
the number of per-file classification attempts (one `progress.update()` each) that
`scan_directory(root, maxDepth)` subsequently makes: both perform the identical
depth-bounded, hidden-directory-filtered descent, one counting files and the other
classifying them.  When every file's stat succeeds, that count also equals the number
of `categorize_file` invocations (an attempt whose `os.stat` raises is skipped before
`categorize_file` is reached, while the progress tick still happens). -/
theorem count_files_matches_scan_attempts (sr : Str) (md : Nat) (now : Int)
    (t : DirTree) :
    count_files sr md sr t = (scan_directory sr md now t).visits
    ∧ (allStatsOk t = true →
        count_files sr md sr t = (scan_directory sr md now t).calls) :=
  count_files_eq_walk sr md now t sr

/-- Witness for C6 at a concrete tree (one file, all stats succeed). -/
theorem count_files_matches_scan_attempts_witness :
    count_files "base".data 3 "base".data tNM = (scan_directory "base".data 3 0 tNM).visits
    ∧ count_files "base".data 3 "base".data tNM
        = (scan_directory "base".data 3 0 tNM).calls :=
  ⟨(count_files_matches_scan_attempts "base".data 3 0 tNM).1,
   (count_files_matches_scan_attempts "base".data 3 0 tNM).2 (by decide)⟩

theorem analyzeWalk_eq_allFiles (guess : Str → Option Str) : ∀ t : DirTree, ∀ p,
    allReadable t = true →
    analyzeWalk guess p t = (allFilesUnder p t).filterMap (specFRecord guess) := by
  intro t
  induction t using DirTree.inductionOn with
  | _ n r dst fs subs ih =>
    intro p hr
    rw [allReadable, Bool.and_eq_true] at hr
    have hforest : ∀ ds, (∀ d ∈ ds, ∀ p', allReadable d = true →
          analyzeWalk guess p' d = (allFilesUnder p' d).filterMap (specFRecord guess)) →
        allReadableForest ds = true →
        analyzeForest guess p ds = (allFilesForest p ds).filterMap (specFRecord guess) := by
      intro ds hds hok
      induction ds with
      | nil => rfl
      | cons d rest ihr =>
        rw [allReadableForest, Bool.and_eq_true] at hok
        rw [analyzeForest, allFilesForest, List.filterMap_append,
          hds d (by simp) (pyJoin p d.name) hok.1,
          ihr (fun x hx => hds x (by simp [hx])) hok.2]
    have hfile : fs.filterMap (fun f =>
        match f.stat with
        | none => none
        | some (sz, mt) =>
          let fp := pyJoin p f.name
          let ext := splitextExt (lowerStr f.name)
          some ⟨categorize_file_format ext (guess fp), ext, fp, sz, mt⟩)
        = (fs.map (fun f => (p, f))).filterMap (specFRecord guess) := by
      rw [List.filterMap_map]
      refine List.filterMap_congr ?_
      intro f _
      cases h : f.stat with
      | none => simp [specFRecord, Function.comp, h]
      | some s => obtain ⟨sz, mt⟩ := s; simp [specFRecord, Function.comp, h]
    rw [analyzeWalk, allFilesUnder, List.filterMap_append, hr.1]
    simp only [Bool.true_eq_false, if_false]
    rw [hfile, hforest subs ih hr.2]

/-- C10: `analyze_downloads_formats` traverses the entire subtree with no depth bound
and no hidden-directory exclusion: over a target whose directories are all listable,
its record list is exactly one record per file of the whole subtree whose stat
succeeds — each such file at any depth, hidden directories included, recorded exactly
once, under the single `(category, extension)` pair computed from its lowercased name
and MIME probe — and a non-existent target yields the empty mapping without error. -/
theorem analyze_downloads_formats_complete :
    (∀ (guess : Str → Option Str) (p : Str),
        analyze_downloads_formats guess p none = [])
    ∧ (∀ (guess : Str → Option Str) (p : Str) (t : DirTree), allReadable t = true →
        analyze_downloads_formats guess p (some t)
          = (allFilesUnder p t).filterMap (specFRecord guess)) :=
  ⟨fun _ _ => rfl, fun guess p t h => analyzeWalk_eq_allFiles guess t p h⟩

/-- Witness for C10 at a concrete tree whose only file hides inside a hidden
subdirectory: the analysis still records exactly that file. -/
theorem analyze_downloads_formats_complete_witness :
    analyze_downloads_formats gNone "dl".data (some tHid)
      = (allFilesUnder "dl".data tHid).filterMap (specFRecord gNone) :=
  analyze_downloads_formats_complete.2 gNone "dl".data tHid (by decide)

theorem scanFileEntry_dir_name (now : Int) (p : Str) (f : FileEnt) (e : SEntry)
    (heq : scanFileEntry now p f = some e) : e.dir = p ∧ e.name = f.name := by
  rw [scanFileEntry] at heq
  cases hstat : f.stat with
  | none => rw [hstat] at heq; cases heq
  | some s =>
    obtain ⟨sz, mt⟩ := s
    rw [hstat] at heq
    obtain ⟨c, _, hc⟩ := Option.map_eq_some'.mp heq
    subst hc
    exact ⟨rfl, rfl⟩

theorem scanDirEntry_dir_name (p : Str) (d : DirTree) (e : SEntry)
    (heq : scanDirEntry p d = some e) : e.dir = p ∧ e.name = d.name := by
  rw [scanDirEntry] at heq
  cases hcd : categorize_directory (pyJoin p d.name) d.name with
  | none => rw [hcd] at heq; cases heq
  | some c =>
    rw [hcd] at heq
    cases d with
    | node dn dr dst' dfs dsubs =>
      cases dst' with
      | none => cases heq
      | some dm =>
        cases heq
        exact ⟨rfl, rfl⟩

theorem mem_fileEntries (p : Str) (now : Int) (fs : List FileEnt) (e : SEntry)
    (he : e ∈ fs.filterMap (scanFileEntry now p)) :
    e.dir = p ∧ e.name ∈ fs.map FileEnt.name := by
  obtain ⟨f, hf, heq⟩ := List.mem_filterMap.mp he
  obtain ⟨h1, h2⟩ := scanFileEntry_dir_name now p f e heq
  exact ⟨h1, by rw [h2]; exact List.mem_map_of_mem FileEnt.name hf⟩

theorem mem_dirEntries (p : Str) (ds : List DirTree) (e : SEntry)
    (he : e ∈ ds.filterMap (scanDirEntry p)) :
    e.dir = p ∧ e.name ∈ ds.map DirTree.name := by
  obtain ⟨d, hd, heq⟩ := List.mem_filterMap.mp he
  obtain ⟨h1, h2⟩ := scanDirEntry_dir_name p d e heq
  exact ⟨h1, by rw [h2]; exact List.mem_map_of_mem DirTree.name hd⟩

/-- C3 counterexample: scanning root `c/d` (maxDepth 2) over `tC3` records the file
`c/d/xc/d/a.log`, whose containing directory `c/d/xc/d` lies 2 path separators below
the scan root — not fewer than maxDepth.  The walk computes depth with
`root.replace(path, '').count(os.sep)`, and the second occurrence of the root string
`c/d` inside the path collapses the count to 1, so the branch is not cut off. -/
theorem scan_depth_invariant_counterexample :
    ¬ (∀ e ∈ (scan_directory "c/d".data 2 0 tC3).entries,
        (e.dir.drop ("c/d".data).length).count '/' < 2) := by decide

/-- C3 amended: the depth invariant holds for the depth the code computes — the number
of `os.sep` occurrences remaining in the containing directory's path after removing
every occurrence of the scan-root string (`walkDepth`), which equals the separator
count between root and directory only when the root string does not reoccur inside the
path: every recorded entry's containing directory has `walkDepth < maxDepth`, and a
directory whose computed depth reaches maxDepth is a hard cutoff — neither its files
nor its subdirectories are visited or classified and it contributes nothing. -/
theorem scan_depth_invariant_amended :
    (∀ (sr : Str) (md : Nat) (now : Int) (t : DirTree) (p : Str),
        ∀ e ∈ (walkScan sr md now p t).entries, walkDepth sr e.dir < md)
    ∧ (∀ (sr : Str) (md : Nat) (now : Int) (p : Str) (t : DirTree),
        md ≤ walkDepth sr p → walkScan sr md now p t = ⟨[], 0, 0⟩) := by
  constructor
  · intro sr md now t
    induction t using DirTree.inductionOn with
    | _ n r dst fs subs ih =>
      intro p e he
      cases r with
      | false => rw [walkScan] at he; simp at he
      | true =>
        by_cases hd : md ≤ walkDepth sr p
        · rw [walkScan] at he; simp [hd] at he
        · simp only [walkScan, Bool.true_eq_false, if_false, if_neg hd,
            List.mem_append] at he
          rcases he with (hfe | hde) | hrest
          · rcases mem_fileEntries p now fs e hfe with ⟨hdir, _⟩
            rw [hdir]; exact Nat.lt_of_not_le hd
          · rcases mem_dirEntries p (subs.filter visibleDir) e hde with ⟨hdir, _⟩
            rw [hdir]; exact Nat.lt_of_not_le hd
          · clear hd
            induction subs with
            | nil => rw [walkScanForest] at hrest; simp at hrest
            | cons d0 rest ihr =>
              rw [walkScanForest] at hrest
              simp only [List.mem_append] at hrest
              rcases hrest with hh | ht
              · by_cases hv : visibleDir d0 = true
                · rw [if_pos hv] at hh
                  exact ih d0 (by simp) (pyJoin p d0.name) e hh
                · rw [if_neg hv] at hh; simp at hh
              · exact ihr (fun x hx => ih x (by simp [hx])) ht
  · intro sr md now p t h
    cases t with
    | node n r dst fs subs =>
      rw [walkScan]
      cases r with
      | false => rfl
      | true => simp [h]

/-- Witness for C3 amended, at the counterexample tree itself: the recorded entry's
containing directory has computed depth below the bound, and with `maxDepth = 0` the
root itself is cut off and nothing at all is scanned. -/
theorem scan_depth_invariant_amended_witness :
    walkDepth "c/d".data
        (SEntry.dir ⟨.logs, "c/d/xc/d".data, "a.log".data, 1, 0⟩) < 2
    ∧ walkScan "c/d".data 0 0 "c/d".data tC3 = ⟨[], 0, 0⟩ :=
  ⟨scan_depth_invariant_amended.1 "c/d".data 2 0 tC3 "c/d".data
      ⟨.logs, "c/d/xc/d".data, "a.log".data, 1, 0⟩ (by decide),
   scan_depth_invariant_amended.2 "c/d".data 0 0 "c/d".data tC3 (by decide)⟩

theorem walkScanForest_entries_mem (sr : Str) (md : Nat) (now : Int) (p : Str) :
    ∀ (ds : List DirTree) (d : DirTree), d ∈ ds → visibleDir d = true →
      ∀ e ∈ (walkScan sr md now (pyJoin p d.name) d).entries,
        e ∈ (walkScanForest sr md now p ds).entries := by
  intro ds
  induction ds with
  | nil => intro d hd; cases hd
  | cons d0 rest ihr =>
    intro d hd hv e he
    rw [walkScanForest]
    simp only [List.mem_append]
    rcases List.mem_cons.mp hd with h | h
    · subst h
      left; rw [if_pos hv]; exact he
    · right; exact ihr d h hv e he

/-- C2 counterexample: scanning `base` over `tNM`, the directory `base/node_modules`
matches `development` and is recorded as a single Entry of recursive size 7 — yet the
walk still descends into it and its file `x.js` (whose path contains the matched
pattern `node_modules`) is additionally recorded as a separate `development` file
Entry in the same result, a path lying strictly under the recorded directory. -/
theorem scan_records_files_under_matched_dir :
    (⟨.development, "base".data, "node_modules".data, 7, 5⟩ : SEntry)
        ∈ (scan_directory "base".data 3 0 tNM).entries
    ∧ (⟨.development, "base/node_modules".data, "x.js".data, 7, 3⟩ : SEntry)
        ∈ (scan_directory "base".data 3 0 tNM).entries
    ∧ isUnder (SEntry.path ⟨.development, "base".data, "node_modules".data, 7, 5⟩)
        (SEntry.path ⟨.development, "base/node_modules".data, "x.js".data, 7, 3⟩)
        = true := by decide

/-- C2 amended: when a kept subdirectory of a surviving walk node matches a category
(and its mtime is readable), it is recorded as a single Entry whose size is the
recursive sum of its contents (`get_directory_size`); but the walk still descends into
it, so every entry its own subtree produces — in particular any of its files that
`categorize_file` matches, which path-substring matching guarantees whenever the
directory matched by name — also appears in the same result. -/
theorem scan_matched_dir_amended (sr : Str) (md : Nat) (now : Int) (p : Str)
    (nm : Str) (dst : Option Int) (fls : List FileEnt) (subs : List DirTree)
    (d : DirTree) (c : CleanCat) (dm : Int)
    (hdepth : walkDepth sr p < md)
    (hmem : d ∈ subs) (hvis : visibleDir d = true)
    (hcat : categorize_directory (pyJoin p d.name) d.name = some c)
    (hst : d.dirStat = some dm) :
    (⟨c, p, d.name, get_directory_size d, dm⟩ : SEntry)
        ∈ (walkScan sr md now p (.node nm true dst fls subs)).entries
    ∧ ∀ e ∈ (walkScan sr md now (pyJoin p d.name) d).entries,
        e ∈ (walkScan sr md now p (.node nm true dst fls subs)).entries := by
  have hnd : ¬ md ≤ walkDepth sr p := Nat.not_le.mpr hdepth
  constructor
  · simp only [walkScan, Bool.true_eq_false, if_false, if_neg hnd, List.mem_append]
    left; right
    apply List.mem_filterMap.mpr
    refine ⟨d, List.mem_filter.mpr ⟨hmem, hvis⟩, ?_⟩
    rw [scanDirEntry, hcat]
    cases d with
    | node dn dr dst' dfs dsubs =>
      simp only [DirTree.dirStat] at hst
      subst hst
      rfl
  · intro e he
    simp only [walkScan, Bool.true_eq_false, if_false, if_neg hnd, List.mem_append]
    right
    exact walkScanForest_entries_mem sr md now p subs d hmem hvis e he

/-- Witness for C2 amended at `tNM`: the `node_modules` entry is recorded, and every
entry of the descent into `node_modules` (such as the `x.js` file entry) also appears
in the full result. -/
theorem scan_matched_dir_amended_witness :
    (⟨.development, "base".data, "node_modules".data, get_directory_size tNMsub, 5⟩ : SEntry)
        ∈ (walkScan "base".data 3 0 "base".data tNM).entries
    ∧ ∀ e ∈ (walkScan "base".data 3 0 (pyJoin "base".data tNMsub.name) tNMsub).entries,
        e ∈ (walkScan "base".data 3 0 "base".data tNM).entries :=
  scan_matched_dir_amended "base".data 3 0 "base".data "base".data (some 0) [] [tNMsub]
    tNMsub .development 5 (by decide) (by simp) (by decide) (by decide) (by decide)

theorem mem_of_getLast?_eq_some {l : Str} {a : Char} (h : l.getLast? = some a) :
    a ∈ l := by
  obtain ⟨hne, heq⟩ := List.mem_getLast?_eq_getLast (Option.mem_def.mpr h)
  rw [heq]
  exact List.getLast_mem hne

theorem goodComp_ne_nil {n : Str} (hn : goodComp n = true) : n ≠ [] := by
  rw [goodComp, Bool.and_eq_true] at hn
  have := hn.1
  cases n with
  | nil => simp [List.isEmpty] at this
  | cons c cs => exact List.cons_ne_nil c cs

theorem goodComp_no_sep {n : Str} (hn : goodComp n = true) : '/' ∉ n := by
  rw [goodComp, Bool.and_eq_true] at hn
  exact of_decide_eq_true hn.2

theorem pyJoin_eq_sep {p n : Str} (hp : goodPath p = true) (hn : goodComp n = true) :
    pyJoin p n = p ++ '/' :: n := by
  rw [goodPath, Bool.and_eq_true] at hp
  have hpne : p ≠ [] := by
    have := hp.1
    cases p with
    | nil => simp [List.isEmpty] at this
    | cons c cs => exact List.cons_ne_nil c cs
  have hplast : ¬ p.getLast? = some '/' := by
    have := hp.2
    rw [Bool.not_eq_true'] at this
    exact beq_eq_false_iff_ne.mp this
  have hnhead : ¬ n.head? = some '/' := by
    cases n with
    | nil => simp
    | cons c cs =>
      simp only [List.head?_cons, Option.some.injEq]
      intro hc
      exact goodComp_no_sep hn (by rw [hc]; exact List.mem_cons_self '/' cs)
  rw [pyJoin, if_neg hnhead, if_neg]
  rintro (h | h)
  · exact hpne h
  · exact hplast h

theorem goodPath_pyJoin {p n : Str} (hp : goodPath p = true) (hn : goodComp n = true) :
    goodPath (pyJoin p n) = true := by
  rw [pyJoin_eq_sep hp hn, goodPath, Bool.and_eq_true]
  constructor
  · have : p ++ '/' :: n ≠ [] := by simp
    cases hpj : p ++ '/' :: n with
    | nil => exact absurd hpj this
    | cons c cs => rfl
  · rw [List.getLast?_append_of_ne_nil p (List.cons_ne_nil '/' n)]
    have hne := goodComp_ne_nil hn
    have hsep := goodComp_no_sep hn
    have : ('/' :: n).getLast? = n.getLast? := by
      cases n with
      | nil => exact absurd rfl hne
      | cons c cs => exact List.getLast?_cons_cons
    rw [this, Bool.not_eq_true']
    rw [beq_eq_false_iff_ne]
    intro hlast
    exact hsep (by
      have := mem_of_getLast?_eq_some hlast
      exact this)

theorem firstComp_no_sep {a : Str} (h : '/' ∉ a) : firstComp a = a := by
  induction a with
  | nil => rfl
  | cons c cs ih =>
    simp only [List.mem_cons, not_or] at h
    have hc : c ≠ '/' := fun hh => h.1 hh.symm
    simp [firstComp, List.takeWhile_cons, hc] at ih ⊢
    exact ih h.2

theorem firstComp_append_sep {a : Str} (x : Str) (h : '/' ∉ a) :
    firstComp (a ++ '/' :: x) = a := by
  induction a with
  | nil => simp [firstComp, List.takeWhile_cons]
  | cons c cs ih =>
    simp only [List.mem_cons, not_or] at h
    have hc : c ≠ '/' := fun hh => h.1 hh.symm
    simp only [List.cons_append, firstComp, List.takeWhile_cons] at ih ⊢
    simp [hc] at ih ⊢
    exact ih h.2

theorem sep_mem_append_sep (a x : Str) : '/' ∈ a ++ '/' :: x := by
  simp

theorem map_filterMap_sublist {α β γ : Type} (F : α → Option β) (g : β → γ)
    (h : α → γ) (H : ∀ x y, F x = some y → g y = h x) :
    ∀ l : List α, List.Sublist ((l.filterMap F).map g) (l.map h) := by
  intro l
  induction l with
  | nil => simp
  | cons x xs ih =>
    rw [List.filterMap_cons, List.map_cons]
    cases hFx : F x with
    | none => exact List.Sublist.cons (h x) ih
    | some y => rw [List.map_cons, H x y hFx]; exact List.Sublist.cons₂ (h x) ih

theorem scanForest_paths (sr : Str) (md : Nat) (now : Int) (p : Str)
    (hp : goodPath p = true) :
    ∀ subs : List DirTree,
    (∀ d ∈ subs, ∀ p', goodPath p' = true → wellFormed d = true →
        ((walkScan sr md now p' d).entries.map SEntry.path).Nodup
        ∧ ∀ s ∈ (walkScan sr md now p' d).entries.map SEntry.path,
            ∃ r, s = p' ++ '/' :: r ∧ r ≠ []) →
    (∀ d ∈ subs, goodComp d.name = true) →
    (subs.map DirTree.name).Nodup →
    wellFormedForest subs = true →
    (((walkScanForest sr md now p subs).entries.map SEntry.path).Nodup
     ∧ ∀ s ∈ (walkScanForest sr md now p subs).entries.map SEntry.path,
         ∃ d ∈ subs, ∃ r, s = p ++ '/' :: (d.name ++ '/' :: r)) := by
  intro subs
  induction subs with
  | nil =>
    intro _ _ _ _
    constructor
    · rw [walkScanForest]; exact List.nodup_nil
    · rw [walkScanForest]; intro s hs; simp at hs
  | cons d0 rest ihr =>
    intro hIH hgood hnod hwf
    rw [wellFormedForest, Bool.and_eq_true] at hwf
    rw [List.map_cons, List.nodup_cons] at hnod
    have hgood0 : goodComp d0.name = true := hgood d0 (by simp)
    obtain ⟨hT, hTshape⟩ := ihr (fun d hd => hIH d (by simp [hd]))
      (fun d hd => hgood d (by simp [hd])) hnod.2 hwf.2
    have hHfacts : ((if visibleDir d0 = true then walkScan sr md now (pyJoin p d0.name) d0
          else ⟨[], 0, 0⟩).entries.map SEntry.path).Nodup
        ∧ ∀ s ∈ (if visibleDir d0 = true then walkScan sr md now (pyJoin p d0.name) d0
            else ⟨[], 0, 0⟩).entries.map SEntry.path,
            ∃ r, s = p ++ '/' :: (d0.name ++ '/' :: r) := by
      by_cases hv : visibleDir d0 = true
      · rw [if_pos hv]
        have hq : goodPath (pyJoin p d0.name) = true := goodPath_pyJoin hp hgood0
        obtain ⟨hn, hs⟩ := hIH d0 (by simp) (pyJoin p d0.name) hq hwf.1
        refine ⟨hn, fun s hsm => ?_⟩
        obtain ⟨r, hr, _⟩ := hs s hsm
        refine ⟨r, ?_⟩
        rw [hr, pyJoin_eq_sep hp hgood0, List.append_assoc, List.cons_append]
      · rw [if_neg hv]
        exact ⟨List.nodup_nil, fun s hs => by simp at hs⟩
    constructor
    · rw [walkScanForest]
      simp only [List.map_append]
      refine hHfacts.1.append hT ?_
      intro s hsH hsT
      obtain ⟨r, hr⟩ := hHfacts.2 s hsH
      obtain ⟨d, hd, r', hr'⟩ := hTshape s hsT
      rw [hr] at hr'
      have h1 := List.append_cancel_left hr'
      injection h1 with _ h2
      have h3 : d0.name = d.name := by
        have := congrArg firstComp h2
        rwa [firstComp_append_sep r (goodComp_no_sep hgood0),
          firstComp_append_sep r' (goodComp_no_sep (hgood d (by simp [hd])))] at this
      exact hnod.1 (h3 ▸ List.mem_map_of_mem DirTree.name hd)
    · rw [walkScanForest]
      simp only [List.map_append, List.mem_append]
      rintro s (hsH | hsT)
      · obtain ⟨r, hr⟩ := hHfacts.2 s hsH
        exact ⟨d0, by simp, r, hr⟩
      · obtain ⟨d, hd, r, hr⟩ := hTshape s hsT
        exact ⟨d, by simp [hd], r, hr⟩

theorem scan_paths_main (sr : Str) (md : Nat) (now : Int) : ∀ t : DirTree, ∀ p,
    goodPath p = true → wellFormed t = true →
    (((walkScan sr md now p t).entries.map SEntry.path).Nodup
     ∧ ∀ s ∈ (walkScan sr md now p t).entries.map SEntry.path,
         ∃ r, s = p ++ '/' :: r ∧ r ≠ []) := by
  intro t
  induction t using DirTree.inductionOn with
  | _ n r dst fs subs ih =>
    intro p hp hwf
    cases r with
    | false =>
      have hE : walkScan sr md now p (DirTree.node n false dst fs subs) = ⟨[], 0, 0⟩ := by
        rw [walkScan]; simp
      rw [hE]
      exact ⟨List.nodup_nil, fun s hs => by simp at hs⟩
    | true =>
      by_cases hd : md ≤ walkDepth sr p
      · have hE : walkScan sr md now p (DirTree.node n true dst fs subs) = ⟨[], 0, 0⟩ := by
          rw [walkScan]; simp [hd]
        rw [hE]
        exact ⟨List.nodup_nil, fun s hs => by simp at hs⟩
      · simp only [wellFormed, Bool.and_eq_true] at hwf
        obtain ⟨⟨⟨⟨⟨hgf, hgd⟩, hnodf⟩, hnodd⟩, hdisj⟩, hwff⟩ := hwf
        have hE : (walkScan sr md now p (DirTree.node n true dst fs subs)).entries
            = fs.filterMap (scanFileEntry now p)
              ++ (subs.filter visibleDir).filterMap (scanDirEntry p)
              ++ (walkScanForest sr md now p subs).entries := by
          rw [walkScan]; simp [hd]
        rw [hE]
        have hfls : ∀ x ∈ fs.map FileEnt.name, goodComp x = true := by
          intro x hx
          obtain ⟨f, hf, hfx⟩ := List.mem_map.mp hx
          subst hfx
          exact List.all_eq_true.mp hgf f hf
        have hsubs : ∀ x ∈ subs.map DirTree.name, goodComp x = true := by
          intro x hx
          obtain ⟨d, hdm, hdx⟩ := List.mem_map.mp hx
          subst hdx
          exact List.all_eq_true.mp hgd d hdm
        have hnodf' : (fs.map FileEnt.name).Nodup := of_decide_eq_true hnodf
        have hnodd' : (subs.map DirTree.name).Nodup := of_decide_eq_true hnodd
        have hdisj' : ∀ x ∈ fs.map FileEnt.name, x ∉ subs.map DirTree.name := by
          intro x hx
          obtain ⟨f, hf, hfx⟩ := List.mem_map.mp hx
          subst hfx
          exact of_decide_eq_true (List.all_eq_true.mp hdisj f hf)
        have hApaths : (fs.filterMap (scanFileEntry now p)).map SEntry.path
            = ((fs.filterMap (scanFileEntry now p)).map SEntry.name).map
                (fun nn => p ++ '/' :: nn) := by
          rw [List.map_map]
          apply List.map_congr_left
          intro e he
          obtain ⟨h1, h2⟩ := mem_fileEntries p now fs e he
          show SEntry.path e = p ++ '/' :: e.name
          rw [SEntry.path, h1, pyJoin_eq_sep hp (hfls e.name h2)]
        have hBpaths : ((subs.filter visibleDir).filterMap (scanDirEntry p)).map SEntry.path
            = (((subs.filter visibleDir).filterMap (scanDirEntry p)).map SEntry.name).map
                (fun nn => p ++ '/' :: nn) := by
          rw [List.map_map]
          apply List.map_congr_left
          intro e he
          obtain ⟨h1, h2⟩ := mem_dirEntries p (subs.filter visibleDir) e he
          have h2' : e.name ∈ subs.map DirTree.name :=
            ((List.filter_sublist subs).map DirTree.name).mem h2
          show SEntry.path e = p ++ '/' :: e.name
          rw [SEntry.path, h1, pyJoin_eq_sep hp (hsubs e.name h2')]
        have hAsub : List.Sublist ((fs.filterMap (scanFileEntry now p)).map SEntry.name)
            (fs.map FileEnt.name) :=
          map_filterMap_sublist (scanFileEntry now p) SEntry.name FileEnt.name
            (fun f e hfe => (scanFileEntry_dir_name now p f e hfe).2) fs
        have hBsub : List.Sublist
            (((subs.filter visibleDir).filterMap (scanDirEntry p)).map SEntry.name)
            (subs.map DirTree.name) :=
          List.Sublist.trans
            (map_filterMap_sublist (scanDirEntry p) SEntry.name DirTree.name
              (fun d e hde => (scanDirEntry_dir_name p d e hde).2) (subs.filter visibleDir))
            ((List.filter_sublist subs).map DirTree.name)
        have hinj : Function.Injective (fun nn : Str => p ++ '/' :: nn) := by
          intro a b hab
          have h1 := List.append_cancel_left hab
          injection h1
        obtain ⟨hCnodup, hCshape⟩ := scanForest_paths sr md now p hp subs
          (fun d hdm p' hp' hwf' => ih d hdm p' hp' hwf')
          (fun d hdm => hsubs d.name (List.mem_map_of_mem DirTree.name hdm))
          hnodd' hwff
        have hAmem : ∀ s ∈ (fs.filterMap (scanFileEntry now p)).map SEntry.path,
            ∃ nn ∈ fs.map FileEnt.name, s = p ++ '/' :: nn := by
          intro s hs
          rw [hApaths] at hs
          obtain ⟨nn, hnn, hs⟩ := List.mem_map.mp hs
          exact ⟨nn, hAsub.mem hnn, hs.symm⟩
        have hBmem : ∀ s ∈ ((subs.filter visibleDir).filterMap (scanDirEntry p)).map SEntry.path,
            ∃ nn ∈ subs.map DirTree.name, s = p ++ '/' :: nn := by
          intro s hs
          rw [hBpaths] at hs
          obtain ⟨nn, hnn, hs⟩ := List.mem_map.mp hs
          exact ⟨nn, hBsub.mem hnn, hs.symm⟩
        rw [List.map_append, List.map_append]
        constructor
        · refine List.Nodup.append (List.Nodup.append ?_ ?_ ?_) hCnodup ?_
          · rw [hApaths]
            exact (hAsub.nodup hnodf').map hinj
          · rw [hBpaths]
            exact (hBsub.nodup hnodd').map hinj
          · intro s hsA hsB
            obtain ⟨n1, hn1, he1⟩ := hAmem s hsA
            obtain ⟨n2, hn2, he2⟩ := hBmem s hsB
            rw [he1] at he2
            have h1 := List.append_cancel_left he2
            injection h1 with _ h2
            exact hdisj' n1 hn1 (h2 ▸ hn2)
          · intro s hsAB hsC
            obtain ⟨d, _, rr, hr⟩ := hCshape s hsC
            rcases List.mem_append.mp hsAB with hsA | hsB
            · obtain ⟨n1, hn1, he1⟩ := hAmem s hsA
              rw [he1] at hr
              have h1 := List.append_cancel_left hr
              injection h1 with _ h2
              exact absurd (h2 ▸ sep_mem_append_sep d.name rr)
                (goodComp_no_sep (hfls n1 hn1))
            · obtain ⟨n2, hn2, he2⟩ := hBmem s hsB
              rw [he2] at hr
              have h1 := List.append_cancel_left hr
              injection h1 with _ h2
              exact absurd (h2 ▸ sep_mem_append_sep d.name rr)
                (goodComp_no_sep (hsubs n2 hn2))
        · intro s hs
          rcases List.mem_append.mp hs with hsAB | hsC
          · rcases List.mem_append.mp hsAB with hsA | hsB
            · obtain ⟨n1, hn1, he1⟩ := hAmem s hsA
              exact ⟨n1, he1, goodComp_ne_nil (hfls n1 hn1)⟩
            · obtain ⟨n2, hn2, he2⟩ := hBmem s hsB
              exact ⟨n2, he2, goodComp_ne_nil (hsubs n2 hn2)⟩
          · obtain ⟨d, _, rr, hr⟩ := hCshape s hsC
            exact ⟨d.name ++ '/' :: rr, hr, by simp⟩

/-- C8: ScanResult exclusivity — within the result of a single `scan_directory` call
over a well-formed filesystem (distinct sibling names, separator-free components) from
a well-formed root path, the recorded paths are pairwise distinct: no path appears as
an Entry under two different categories (nor twice under one), i.e. every classified
file or directory is appended to exactly one category's sequence, exactly once. -/
theorem scan_result_paths_nodup (sr : Str) (md : Nat) (now : Int) (t : DirTree)
    (hroot : goodPath sr = true) (hwf : wellFormed t = true) :
    ((scan_directory sr md now t).entries.map SEntry.path).Nodup :=
  (scan_paths_main sr md now t sr hroot hwf).1

/-- Witness for C8 at the concrete tree `tNM`, whose scan records two entries. -/
theorem scan_result_paths_nodup_witness :
    ((scan_directory "base".data 3 0 tNM).entries.map SEntry.path).Nodup :=
  scan_result_paths_nodup "base".data 3 0 tNM (by decide) (by decide)
